import Mathlib

/-!
Shallow embedding of the AMP runtime primitives (shared-memory arena,
SPSC mailbox, SPSC ring buffer, counting semaphore, boot handshake)
from src/runtime/src, together with proofs about the properties the
specification states for them.

Machine integers are modelled as Nat with explicit reduction modulo
2^32 (uint32_t) or 2^64 (size_t) exactly where the C code performs
wrapping arithmetic.  Byte arrays are modelled as functions Nat → Nat
(byte at flat offset).  Null pointers are modelled with Option.
-/

namespace Amp

/-- 2^32, the modulus of uint32_t arithmetic. -/
def U32 : Nat := 4294967296

/-- 2^64, the modulus of size_t arithmetic. -/
def SZ : Nat := 18446744073709551616

/-- Unsigned 32-bit subtraction a - b (both operands assumed < 2^32),
as computed by C on uint32_t operands. -/
def u32sub (a b : Nat) : Nat := (a + U32 - b) % U32

/-- Pointwise update of a byte store at one address. -/
def upd (f : Nat → Nat) (a v : Nat) : Nat → Nat :=
  fun j => if j = a then v else f j

/-- Rounding of a size_t to a multiple of 8 as the C expression
(size + 7) and ~((size_t)7) performs it: the addition wraps modulo
2^64, the mask clears the low three bits. -/
def roundUp8 (s : Nat) : Nat :=
  (s + 7) % SZ - (s + 7) % SZ % 8

/-! ## Shared-memory arena (src/runtime/src/amp_shmem.c)

The global g_shmem_pool is modelled as an explicit Pool value threaded
through the operations; the all-zero pool is the uninitialized state
(base = 0 models a NULL base pointer).  Addresses are Nat. -/

structure Pool where
  base : Nat
  size : Nat
  allocated : Nat
deriving Repr, DecidableEq

/-- amp_shmem_init: rejects a NULL base or zero size, otherwise resets
the pool (the memset of the region has no observable effect in this
model).  Returns the new pool and the C return value. -/
def amp_shmem_init (p : Pool) (base size : Nat) : Pool × Int :=
  if base = 0 ∨ size = 0 then (p, -1)
  else ({ base := base, size := size, allocated := 0 }, 0)

/-- amp_shmem_alloc: bump allocation.  Fails on zero size or an
uninitialized pool; rounds the size up to a multiple of 8 (with size_t
wrap); fails if allocated + size > pool size (size_t comparison);
otherwise returns base + allocated and advances allocated. -/
def amp_shmem_alloc (p : Pool) (size : Nat) : Pool × Option Nat :=
  if size = 0 ∨ p.base = 0 then (p, none)
  else
    let sz := roundUp8 size
    if (p.allocated + sz) % SZ > p.size then (p, none)
    else ({ p with allocated := (p.allocated + sz) % SZ }, some (p.base + p.allocated))

/-- Runs a sequence of amp_shmem_alloc calls, collecting each result. -/
def allocTrace (p : Pool) : List Nat → Pool × List (Option Nat)
  | [] => (p, [])
  | s :: rest =>
    let step := amp_shmem_alloc p s
    let tail := allocTrace step.1 rest
    (tail.1, step.2 :: tail.2)

/-- The addresses a bump allocator starting at offset a0 hands out for
requests ss (exact arithmetic, used to state the arena claims). -/
def expectedAddrs (base : Nat) (a0 : Nat) : List Nat → List Nat
  | [] => []
  | s :: rest => (base + a0) :: expectedAddrs base (a0 + roundUp8 s) rest

/-- Consecutive allocation ranges (address, length): each range starts
at or after lo, ends at or before hi, and each subsequent range starts
at or after the end of the previous one (hence all ranges are pairwise
disjoint and lie within the pool). -/
def rangesOk (lo hi : Nat) : List (Nat × Nat) → Prop
  | [] => True
  | r :: rest => lo ≤ r.1 ∧ r.1 + r.2 ≤ hi ∧ rangesOk (r.1 + r.2) hi rest

/-! ## Mailbox (src/runtime/src/amp_mailbox.c) -/

structure Mailbox where
  write_idx : Nat
  read_idx : Nat
  msg_size : Nat
  msg_slots : Nat
  mask : Nat
  data : Nat → Nat

/-- The power-of-two rounding in amp_mailbox_create: the bit-smearing
sequence on a uint32_t slot count (decrement, fold the high bits down,
increment; the increment wraps modulo 2^32). -/
def roundPow2 (s0 : Nat) : Nat :=
  if s0 &&& (s0 - 1) ≠ 0 then
    let s1 := s0 - 1
    let s2 := s1 ||| (s1 >>> 1)
    let s3 := s2 ||| (s2 >>> 2)
    let s4 := s3 ||| (s3 >>> 4)
    let s5 := s4 ||| (s4 >>> 8)
    let s6 := s5 ||| (s5 >>> 16)
    (s6 + 1) % U32
  else s0

/-- amp_mailbox_create: rejects msg_size = 0 or msg_slots = 0, rounds
the slot count to a power of two, and returns the fresh control block
(the arena allocation is abstracted: claims quantify over mailboxes
the function actually returned, and the arena zeroes its storage).
mask is the uint32_t value slots - 1. -/
def amp_mailbox_create (msg_size msg_slots : Nat) : Option Mailbox :=
  if msg_size = 0 ∨ msg_slots = 0 then none
  else
    let slots := roundPow2 msg_slots
    some { write_idx := 0, read_idx := 0, msg_size := msg_size,
           msg_slots := slots, mask := (slots + U32 - 1) % U32,
           data := fun _ => 0 }

/-- Writes the bytes of msg (byte i read as msg.getD i 0, matching the
memcpy of msg_size bytes from the caller buffer) into the byte store
starting at flat offset off. -/
def copyIn (d : Nat → Nat) (off : Nat) (msg : List Nat) (n : Nat) : Nat → Nat :=
  match n with
  | 0 => d
  | m + 1 => upd (copyIn d off msg m) (off + m) (msg.getD m 0)

/-- amp_mailbox_try_send on a non-NULL mailbox and message: compares
write_idx - read_idx (uint32_t subtraction) against msg_slots, copies
msg_size bytes into slot (write_idx and mask), then stores
write_idx + 1 (uint32_t).  Returns the C result and the new state. -/
def amp_mailbox_try_send (m : Mailbox) (msg : List Nat) : Int × Mailbox :=
  if u32sub m.write_idx m.read_idx ≥ m.msg_slots then (-1, m)
  else
    let slot := m.write_idx &&& m.mask
    (0, { m with data := copyIn m.data (slot * m.msg_size) msg m.msg_size,
                 write_idx := (m.write_idx + 1) % U32 })

/-- amp_mailbox_try_recv on a non-NULL mailbox and buffer: declares the
mailbox empty when read_idx >= write_idx (plain uint32_t comparison as
written in the source), otherwise copies msg_size bytes out of slot
(read_idx and mask) and stores read_idx + 1 (uint32_t).  Returns the C
result, the new state, and the message copied out (none on failure). -/
def amp_mailbox_try_recv (m : Mailbox) : Int × Mailbox × Option (List Nat) :=
  if m.read_idx ≥ m.write_idx then (-1, m, none)
  else
    let slot := m.read_idx &&& m.mask
    let msg := (List.range m.msg_size).map (fun i => m.data (slot * m.msg_size + i))
    (0, { m with read_idx := (m.read_idx + 1) % U32 }, some msg)

/-- amp_mailbox_try_send including the NULL pre-checks. -/
def amp_mailbox_try_send_opt (m : Option Mailbox) (msg : Option (List Nat)) :
    Int × Option Mailbox :=
  match m, msg with
  | some mb, some bytes =>
    let r := amp_mailbox_try_send mb bytes
    (r.1, some r.2)
  | _, _ => (-1, m)

/-- One producer or consumer step on a mailbox. -/
inductive MboxOp where
  | send (msg : List Nat)
  | recv
deriving Repr

/-- State transition of one amp_mailbox_try_send or amp_mailbox_try_recv
call (a failed call leaves the state unchanged, as in the source). -/
def mboxStep (m : Mailbox) : MboxOp → Mailbox
  | .send msg => (amp_mailbox_try_send m msg).2
  | .recv => (amp_mailbox_try_recv m).2.1

/-- k alternating try_send / try_recv pairs. -/
def altOps (msg : List Nat) : Nat → List MboxOp
  | 0 => []
  | k + 1 => altOps msg k ++ [MboxOp.send msg, MboxOp.recv]

/-- The mailbox capacity invariant stated by the spec, together with
the uint32_t bounds of the fields that carry it. -/
def mboxWF (m : Mailbox) : Prop :=
  m.write_idx < U32 ∧ m.read_idx < U32 ∧ m.msg_slots < U32 ∧
  u32sub m.write_idx m.read_idx ≤ m.msg_slots

instance (m : Mailbox) : Decidable (mboxWF m) := by
  unfold mboxWF; infer_instance

/-- The loop of amp_mailbox_send specialised to a NULL mailbox handle:
amp_mailbox_try_send always returns -1, so each iteration only runs
the timeout bookkeeping (count starts at timeout_ms * 1000 as a
uint32_t; when timeout_ms > 0 the loop decrements count with uint32_t
wrap and returns -1 when it reaches 0).  fuel bounds the number of
iterations inspected; none means the loop has not returned within
fuel iterations. -/
def sendNullLoop : Nat → Nat → Nat → Option Int
  | 0, _, _ => none
  | fuel + 1, timeout, count =>
    if timeout > 0 then
      let count1 := (count + U32 - 1) % U32
      if count1 = 0 then some (-1) else sendNullLoop fuel timeout count1
    else sendNullLoop fuel timeout count

/-- amp_mailbox_send with a NULL mailbox handle, observed for fuel loop
iterations. -/
def amp_mailbox_send_null (timeout_ms fuel : Nat) : Option Int :=
  sendNullLoop fuel timeout_ms (timeout_ms * 1000 % U32)

/-! ## Counting semaphore (src/runtime/src/amp_semaphore.c)

try_wait and post are CAS loops on the count word; their linearized
effect (the successful CAS, or the early return on the observed value)
is one atomic step on the control block. -/

structure Semaphore where
  count : Nat
  max_count : Nat
deriving Repr, DecidableEq

/-- amp_semaphore_create: rejects initial_count > max_count and
max_count = 0 (arena allocation abstracted as for the mailbox). -/
def amp_semaphore_create (initial max : Nat) : Option Semaphore :=
  if initial > max ∨ max = 0 then none
  else some { count := initial, max_count := max }

/-- amp_semaphore_try_wait on a non-NULL semaphore: returns -1 when the
observed count is 0, otherwise decrements it and returns 0. -/
def amp_semaphore_try_wait (s : Semaphore) : Int × Semaphore :=
  if s.count = 0 then (-1, s)
  else (0, { s with count := s.count - 1 })

/-- amp_semaphore_post on a non-NULL semaphore: returns -1 when the
observed count is at least max_count, otherwise increments it and
returns 0. -/
def amp_semaphore_post (s : Semaphore) : Int × Semaphore :=
  if s.count ≥ s.max_count then (-1, s)
  else (0, { s with count := s.count + 1 })

/-- amp_semaphore_get_count including the NULL pre-check: returns 0 for
a NULL handle, otherwise the plain load of count. -/
def amp_semaphore_get_count : Option Semaphore → Nat
  | none => 0
  | some s => s.count

/-- One semaphore operation. -/
inductive SemOp where
  | tryWait
  | post
deriving Repr, DecidableEq

/-- Accumulated run state: the semaphore plus the numbers of successful
waits and successful posts so far. -/
structure SemRun where
  sem : Semaphore
  waits : Nat
  posts : Nat
deriving Repr, DecidableEq

def semStep (st : SemRun) : SemOp → SemRun
  | .tryWait =>
    let r := amp_semaphore_try_wait st.sem
    { st with sem := r.2, waits := if r.1 = 0 then st.waits + 1 else st.waits }
  | .post =>
    let r := amp_semaphore_post st.sem
    { st with sem := r.2, posts := if r.1 = 0 then st.posts + 1 else st.posts }

/-! ## Ring buffer (src/runtime/src/amp_ringbuf.c) -/

structure Ringbuf where
  write_idx : Nat
  read_idx : Nat
  size : Nat
  mask : Nat
  data : Nat → Nat

/-- amp_ringbuf_create: rejects size 0 and non-powers-of-two; the size
and mask fields store the uint32_t casts of size and size - 1. -/
def amp_ringbuf_create (size : Nat) : Option Ringbuf :=
  if size = 0 ∨ size &&& (size - 1) ≠ 0 then none
  else some { write_idx := 0, read_idx := 0, size := size % U32,
              mask := (size - 1) % U32, data := fun _ => 0 }

/-- amp_ringbuf_available on a non-NULL handle: uint32_t subtraction
write_idx - read_idx. -/
def amp_ringbuf_available (rb : Ringbuf) : Nat :=
  u32sub rb.write_idx rb.read_idx

/-- amp_ringbuf_free_space on a non-NULL handle: size_t subtraction
rb.size - available (wraps modulo 2^64 exactly as the C expression). -/
def amp_ringbuf_free_space (rb : Ringbuf) : Nat :=
  (rb.size + SZ - amp_ringbuf_available rb) % SZ

/-- The byte-copy loop of amp_ringbuf_write: byte j of bytes goes to
data[(w + j) and mask], in increasing j (later stores win). -/
def writeBytes (d : Nat → Nat) (w mask : Nat) : List Nat → Nat → Nat
  | [], j => d j
  | b :: rest, j => writeBytes (upd d (w &&& mask) b) (w + 1) mask rest j

/-- amp_ringbuf_write on a non-NULL handle and source: writes
n = min(len, free_space) bytes (byte i read as src.getD i 0, matching
the byte loop over the caller buffer) and publishes write_idx + n
(uint32_t).  Returns the count and the new state. -/
def amp_ringbuf_write (rb : Ringbuf) (src : List Nat) (len : Nat) : Nat × Ringbuf :=
  if len = 0 then (0, rb)
  else
    let n := min len (amp_ringbuf_free_space rb)
    let bytes := (List.range n).map (fun i => src.getD i 0)
    (n, { rb with data := writeBytes rb.data rb.write_idx rb.mask bytes,
                  write_idx := (rb.write_idx + n) % U32 })

/-- amp_ringbuf_read on a non-NULL handle and destination: reads
n = min(len, available) bytes from data[(r + i) and mask] and
publishes read_idx + n (uint32_t).  Returns the count, the bytes read,
and the new state. -/
def amp_ringbuf_read (rb : Ringbuf) (len : Nat) : Nat × List Nat × Ringbuf :=
  if len = 0 then (0, [], rb)
  else
    let n := min len (amp_ringbuf_available rb)
    let out := (List.range n).map (fun i => rb.data ((rb.read_idx + i) &&& rb.mask))
    (n, out, { rb with read_idx := (rb.read_idx + n) % U32 })

/-- amp_ringbuf_write including the NULL pre-checks (NULL handle or
NULL data returns 0 and changes nothing). -/
def amp_ringbuf_write_opt (rb : Option Ringbuf) (src : Option (List Nat)) (len : Nat) :
    Nat × Option Ringbuf :=
  match rb, src with
  | some r, some s =>
    let w := amp_ringbuf_write r s len
    (w.1, some w.2)
  | _, _ => (0, rb)

/-- amp_ringbuf_read including the NULL pre-checks. -/
def amp_ringbuf_read_opt (rb : Option Ringbuf) (dstNull : Bool) (len : Nat) :
    Nat × Option (List Nat) × Option Ringbuf :=
  match rb, dstNull with
  | some r, false =>
    let x := amp_ringbuf_read r len
    (x.1, some x.2.1, some x.2.2)
  | _, _ => (0, none, rb)

/-- Well-formedness of a ring buffer state: uint32_t bounds and the
capacity invariant available ≤ size (which holds for every state
reachable from create under the SPSC discipline). -/
def rbWF (rb : Ringbuf) : Prop :=
  rb.write_idx < U32 ∧ rb.read_idx < U32 ∧ rb.size < U32 ∧
  amp_ringbuf_available rb ≤ rb.size

instance (rb : Ringbuf) : Decidable (rbWF rb) := by
  unfold rbWF; infer_instance

/-! ## Boot handshake (src/runtime/src/amp_boot.c)

core_ready_flags is a single uint32_t word; bit i is tested with
Nat.testBit.  Each operation takes the id of the calling core where
the source consults amp_get_core_id(). -/

def AMP_CORE_COUNT : Nat := 2

structure BootState where
  core_ready_flags : Nat
deriving Repr, DecidableEq

/-- amp_boot_init: refuses to run on a secondary core; on the primary
core it stores 0 to core_ready_flags and then sets bit 0. -/
def amp_boot_init (callerId : Nat) (st : BootState) : Int × BootState :=
  if callerId ≠ 0 then (-1, st)
  else (0, { core_ready_flags := 0 ||| 1 <<< 0 })

/-- amp_boot_core (generic weak implementation): validates the id and
otherwise does nothing; never touches core_ready_flags. -/
def amp_boot_core (core_id : Nat) (st : BootState) : Int × BootState :=
  if core_id ≥ AMP_CORE_COUNT ∨ core_id = 0 then (-1, st) else (0, st)

/-- amp_boot_wait_core_ready: validates the id, then polls the target
bit.  It never writes core_ready_flags; in this single-state model the
flags cannot change under it, so the poll returns success when the bit
is set, a timeout error when it is clear and timeout_ms > 0, and never
returns (modelled as none) when the bit is clear and timeout_ms = 0.
The state is returned unchanged in every case. -/
def amp_boot_wait_core_ready (core_id timeout_ms : Nat) (st : BootState) :
    Option Int × BootState :=
  if core_id ≥ AMP_CORE_COUNT then (some (-1), st)
  else if st.core_ready_flags.testBit core_id then (some 0, st)
  else if timeout_ms > 0 then (some (-3), st)
  else (none, st)

/-- amp_boot_signal_ready: ORs bit callerId into core_ready_flags (the
store is to a uint32_t, hence the reduction modulo 2^32). -/
def amp_boot_signal_ready (callerId : Nat) (st : BootState) : BootState :=
  { core_ready_flags := (st.core_ready_flags ||| 1 <<< callerId) % U32 }

/-! ## Derived states and specification predicates -/

/-- The fresh 4-slot, 1-byte-message mailbox that amp_mailbox_create
returns. -/
def mb0 : Mailbox :=
  { write_idx := 0, read_idx := 0, msg_size := 1, msg_slots := 4, mask := 3,
    data := fun _ => 0 }

/-- The mailbox state after 2^32 - 1 successful send/recv pairs and one
further successful send from the fresh state: write_idx has wrapped to
0 while read_idx is 2^32 - 1, with one message pending. -/
def c1Final : Mailbox :=
  ((altOps [9] (U32 - 1)) ++ [MboxOp.send [9]]).foldl mboxStep mb0

/-- The mathematical rounding round_up(s, 8) the specification speaks
of, written from the words of the spec (exact arithmetic, no size_t
wrap), to be compared against roundUp8, the rounding the source
computes.  The two agree exactly on s + 7 < 2^64 and diverge at
s = 2^64 - 7 and above, where the source's (s + 7) wraps to a small
value. -/
def roundUp8exact (s : Nat) : Nat := (s + 7) / 8 * 8

/-- The behavior of a run of k successful amp_shmem_alloc calls on a
freshly initialized pool: the allocated counter is the sum of the
rounded request sizes, the returned addresses are the prefix sums
above base in order, all returned ranges lie in the pool and are
pairwise disjoint, every address is base plus a multiple of 8, and a
single alloc call fails exactly on a zero size, an uninitialized pool,
or an out-of-space request. -/
def shmemAllocSpec (base size : Nat) (ss : List Nat) : Prop :=
  (allocTrace { base := base, size := size, allocated := 0 } ss).1.allocated
      = (ss.map roundUp8).sum ∧
  (ss.map roundUp8).sum ≤ size ∧
  (allocTrace { base := base, size := size, allocated := 0 } ss).2
      = (expectedAddrs base 0 ss).map some ∧
  (∀ q ∈ (expectedAddrs base 0 ss).zip (ss.map roundUp8),
      base ≤ q.1 ∧ q.1 + q.2 ≤ base + size) ∧
  ((expectedAddrs base 0 ss).zip (ss.map roundUp8)).Pairwise
      (fun x y => x.1 + x.2 ≤ y.1) ∧
  (∀ a ∈ expectedAddrs base 0 ss, ∃ k, a = base + 8 * k) ∧
  (∀ (p : Pool) (s : Nat), p.allocated ≤ p.size → p.size + s + 7 < SZ →
    ((amp_shmem_alloc p s).2 = none ↔ s = 0 ∨ p.base = 0 ∨ p.size < p.allocated + roundUp8 s))

/-- Alignment behavior of the arena: init succeeds on any non-null
base (no alignment check), and every address alloc returns is base
plus a multiple of 8, so it is absolutely 8-byte aligned exactly when
base is. -/
def shmemAlignSpec (base size : Nat) (ss : List Nat) : Prop :=
  (amp_shmem_init { base := 0, size := 0, allocated := 0 } base size).2 = 0 ∧
  ∀ r ∈ (allocTrace { base := base, size := size, allocated := 0 } ss).2,
    ∀ a, r = some a → (∃ k, a = base + 8 * k) ∧ (a % 8 = 0 ↔ base % 8 = 0)

/-- The initial run state of a semaphore created with the given
initial and maximum counts. -/
def semRun0 (initial max : Nat) : SemRun :=
  { sem := { count := initial, max_count := max }, waits := 0, posts := 0 }

/-- The semaphore conservation property: after every prefix of a run,
successful posts + initial = successful waits + count (hence posts
minus waits equals count minus initial) and count stays at most max;
try_wait fails exactly on an observed count of 0 and post fails
exactly on an observed count at or above max_count. -/
def semRunSpec (initial max : Nat) (ops : List SemOp) : Prop :=
  (∀ n : Nat,
    ((ops.take n).foldl semStep (semRun0 initial max)).posts + initial =
      ((ops.take n).foldl semStep (semRun0 initial max)).waits +
      ((ops.take n).foldl semStep (semRun0 initial max)).sem.count ∧
    ((ops.take n).foldl semStep (semRun0 initial max)).sem.count ≤ max) ∧
  (∀ s : Semaphore, (amp_semaphore_try_wait s).1 = -1 ↔ s.count = 0) ∧
  (∀ s : Semaphore, (amp_semaphore_post s).1 = -1 ↔ s.max_count ≤ s.count)

/-- Transfer-count behavior of one ring-buffer write and one read from
the same state: both transfer and return min(len, free) respectively
min(len, available) bytes and advance only their own index by that
count; NULL or zero-length calls return 0 and change nothing. -/
def rbCountSpec (rb : Ringbuf) (src : List Nat) (len : Nat) : Prop :=
  (amp_ringbuf_write rb src len).1 = min len (rb.size - amp_ringbuf_available rb) ∧
  (amp_ringbuf_write rb src len).2.write_idx
      = (rb.write_idx + min len (rb.size - amp_ringbuf_available rb)) % U32 ∧
  (amp_ringbuf_write rb src len).2.read_idx = rb.read_idx ∧
  (amp_ringbuf_read rb len).1 = min len (amp_ringbuf_available rb) ∧
  (amp_ringbuf_read rb len).2.1.length = min len (amp_ringbuf_available rb) ∧
  (amp_ringbuf_read rb len).2.2.read_idx
      = (rb.read_idx + min len (amp_ringbuf_available rb)) % U32 ∧
  (amp_ringbuf_read rb len).2.2.write_idx = rb.write_idx ∧
  (∀ (s2 : Option (List Nat)) (l2 : Nat), (amp_ringbuf_write_opt none s2 l2).1 = 0) ∧
  (∀ l2 : Nat, (amp_ringbuf_write_opt (some rb) none l2).1 = 0) ∧
  (amp_ringbuf_write rb src 0).1 = 0 ∧
  (∀ (b : Bool) (l2 : Nat), (amp_ringbuf_read_opt none b l2).1 = 0) ∧
  (∀ l2 : Nat, (amp_ringbuf_read_opt (some rb) true l2).1 = 0) ∧
  (amp_ringbuf_read rb 0).1 = 0

/-- Round trip on a fresh ring buffer: a write of all of data reports
data.length bytes written, and an immediately following read of the
same length returns exactly data. -/
def rbRoundTripSpec (rb0 : Ringbuf) (data : List Nat) : Prop :=
  (amp_ringbuf_write rb0 data data.length).1 = data.length ∧
  (amp_ringbuf_read (amp_ringbuf_write rb0 data data.length).2 data.length).1
      = data.length ∧
  (amp_ringbuf_read (amp_ringbuf_write rb0 data data.length).2 data.length).2.1 = data

/-- A freshly created ring-buffer control block with the given size
and mask fields and initial storage contents. -/
def freshRB (size mask : Nat) (d0 : Nat → Nat) : Ringbuf :=
  { write_idx := 0, read_idx := 0, size := size, mask := mask, data := d0 }

/-- Preservation of a set ready bit by the boot operations other than
amp_boot_init, and the exact effect of amp_boot_init (which resets the
flags word to bit 0 only when run on the primary core). -/
def bootPreserveSpec (st : BootState) (i c t : Nat) : Prop :=
  ((amp_boot_core c st).2.core_ready_flags.testBit i = true) ∧
  ((amp_boot_wait_core_ready c t st).2.core_ready_flags.testBit i = true) ∧
  ((amp_boot_signal_ready c st).core_ready_flags.testBit i = true) ∧
  (∀ c2 : Nat, (amp_boot_init c2 st).2.core_ready_flags
      = if c2 = 0 then 1 else st.core_ready_flags)

/-! ## Arithmetic helper lemmas -/

theorem U32_pos : 0 < U32 := by norm_num [U32]

theorem u32sub_self (a : Nat) : u32sub a a = 0 := by
  simp only [u32sub, U32]; omega

theorem u32sub_of_le (a b : Nat) (ha : a < U32) (hb : b ≤ a) : u32sub a b = a - b := by
  simp only [u32sub, U32] at *; omega

theorem u32sub_succ_left (a b : Nat) (ha : a < U32) (hb : b < U32) :
    u32sub ((a + 1) % U32) b = (u32sub a b + 1) % U32 := by
  simp only [u32sub, U32] at *; omega

/-! ## Mailbox lemmas -/

/-- One producer or consumer step preserves the mailbox capacity
invariant. -/
theorem mboxStep_wf (m : Mailbox) (op : MboxOp) (h : mboxWF m) : mboxWF (mboxStep m op) := by
  obtain ⟨hw, hr, hs, hd⟩ := h
  cases op with
  | send msg =>
    simp only [mboxStep, amp_mailbox_try_send]
    by_cases hc : u32sub m.write_idx m.read_idx ≥ m.msg_slots
    · rw [if_pos hc]; exact ⟨hw, hr, hs, hd⟩
    · rw [if_neg hc]
      have h1 : u32sub m.write_idx m.read_idx + 1 ≤ m.msg_slots := by omega
      refine ⟨Nat.mod_lt _ U32_pos, hr, hs, ?_⟩
      show u32sub ((m.write_idx + 1) % U32) m.read_idx ≤ m.msg_slots
      rw [u32sub_succ_left _ _ hw hr, Nat.mod_eq_of_lt (by omega)]
      exact h1
  | recv =>
    simp only [mboxStep, amp_mailbox_try_recv]
    by_cases hc : m.read_idx ≥ m.write_idx
    · rw [if_pos hc]; exact ⟨hw, hr, hs, hd⟩
    · rw [if_neg hc]
      push_neg at hc
      have hr1 : (m.read_idx + 1) % U32 = m.read_idx + 1 := Nat.mod_eq_of_lt (by omega)
      have hold : u32sub m.write_idx m.read_idx = m.write_idx - m.read_idx :=
        u32sub_of_le _ _ hw (Nat.le_of_lt hc)
      refine ⟨hw, ?_, hs, ?_⟩
      · show (m.read_idx + 1) % U32 < U32
        rw [hr1]; omega
      · show u32sub m.write_idx ((m.read_idx + 1) % U32) ≤ m.msg_slots
        rw [hr1, u32sub_of_le _ _ hw (by omega)]
        omega

theorem mboxFoldl_wf (ops : List MboxOp) : ∀ m, mboxWF m → mboxWF (ops.foldl mboxStep m) := by
  induction ops with
  | nil => intro m h; exact h
  | cons op rest ih => intro m h; exact ih _ (mboxStep_wf m op h)

theorem roundPow2_lt (s0 : Nat) (h : s0 < U32) : roundPow2 s0 < U32 := by
  unfold roundPow2
  split
  · exact Nat.mod_lt _ U32_pos
  · exact h

/-- Every mailbox amp_mailbox_create returns satisfies the capacity
invariant (write and read indices are 0 and the slot count is a
uint32_t value). -/
theorem mboxCreate_wf (msg_size msg_slots : Nat) (hs : msg_slots < U32) :
    ∀ m0 ∈ amp_mailbox_create msg_size msg_slots, mboxWF m0 := by
  intro m0 hm
  rw [Option.mem_def, amp_mailbox_create] at hm
  by_cases h0 : msg_size = 0 ∨ msg_slots = 0
  · rw [if_pos h0] at hm; cases hm
  · rw [if_neg h0] at hm
    cases hm
    refine ⟨by norm_num [U32], by norm_num [U32], roundPow2_lt _ hs, ?_⟩
    show u32sub 0 0 ≤ _
    rw [u32sub_self]
    exact Nat.zero_le _

/-- C2: for every mailbox returned by amp_mailbox_create, the unsigned
capacity invariant 0 ≤ write_idx - read_idx ≤ msg_slots (the last
component of mboxWF; the lower bound is inherent to Nat) holds
initially and after every prefix of any interleaving of
amp_mailbox_try_send (producer) and amp_mailbox_try_recv (consumer)
steps. -/
theorem c2_mailbox_capacity_invariant (msg_size msg_slots : Nat) (hs : msg_slots < U32)
    (ops : List MboxOp) :
    ∀ m0 ∈ amp_mailbox_create msg_size msg_slots, ∀ n : Nat,
      mboxWF ((ops.take n).foldl mboxStep m0) := by
  intro m0 hm n
  exact mboxFoldl_wf _ _ (mboxCreate_wf msg_size msg_slots hs m0 hm)

theorem c2_witness :
    mboxWF (([MboxOp.send [5], MboxOp.recv].take 2).foldl mboxStep
      { write_idx := 0, read_idx := 0, msg_size := 1, msg_slots := 1, mask := 0,
        data := fun _ => 0 }) :=
  c2_mailbox_capacity_invariant 1 1 (by norm_num [U32]) [MboxOp.send [5], MboxOp.recv]
    { write_idx := 0, read_idx := 0, msg_size := 1, msg_slots := 1, mask := 0,
      data := fun _ => 0 } rfl 2

/-- Field values of a successful amp_mailbox_try_send. -/
theorem try_send_fields (m : Mailbox) (msg : List Nat)
    (h : ¬ u32sub m.write_idx m.read_idx ≥ m.msg_slots) :
    (amp_mailbox_try_send m msg).1 = 0 ∧
    (amp_mailbox_try_send m msg).2.write_idx = (m.write_idx + 1) % U32 ∧
    (amp_mailbox_try_send m msg).2.read_idx = m.read_idx ∧
    (amp_mailbox_try_send m msg).2.msg_slots = m.msg_slots := by
  simp only [amp_mailbox_try_send]
  rw [if_neg h]
  exact ⟨rfl, rfl, rfl, rfl⟩

/-- Field values of a successful amp_mailbox_try_recv. -/
theorem try_recv_fields (m : Mailbox) (h : ¬ m.read_idx ≥ m.write_idx) :
    (amp_mailbox_try_recv m).1 = 0 ∧
    (amp_mailbox_try_recv m).2.1.write_idx = m.write_idx ∧
    (amp_mailbox_try_recv m).2.1.read_idx = (m.read_idx + 1) % U32 ∧
    (amp_mailbox_try_recv m).2.1.msg_slots = m.msg_slots := by
  simp only [amp_mailbox_try_recv]
  rw [if_neg h]
  exact ⟨rfl, rfl, rfl, rfl⟩

/-- amp_mailbox_try_recv declares the mailbox empty exactly when
read_idx >= write_idx as plain numbers. -/
theorem try_recv_empty (m : Mailbox) (h : m.read_idx ≥ m.write_idx) :
    amp_mailbox_try_recv m = (-1, m, none) := by
  simp only [amp_mailbox_try_recv]
  rw [if_pos h]

/-- After k alternating successful send and recv steps from a fresh
mailbox, both indices equal k; the slot fields never change. -/
theorem altOps_foldl (msg : List Nat) (m0 : Mailbox) (h0w : m0.write_idx = 0)
    (h0r : m0.read_idx = 0) (hs1 : 1 ≤ m0.msg_slots) :
    ∀ k, k < U32 →
      ((altOps msg k).foldl mboxStep m0).write_idx = k ∧
      ((altOps msg k).foldl mboxStep m0).read_idx = k ∧
      ((altOps msg k).foldl mboxStep m0).msg_slots = m0.msg_slots := by
  intro k
  induction k with
  | zero =>
    intro _
    exact ⟨h0w, h0r, rfl⟩
  | succ k ih =>
    intro hk
    obtain ⟨hw, hr, hs⟩ := ih (by omega)
    rw [altOps, List.foldl_append]
    simp only [List.foldl_cons, List.foldl_nil, mboxStep]
    set m1 := (altOps msg k).foldl mboxStep m0 with hm1
    have hns : ¬ u32sub m1.write_idx m1.read_idx ≥ m1.msg_slots := by
      rw [hw, hr, u32sub_self, hs]; omega
    obtain ⟨_, h2w, h2r, h2s⟩ := try_send_fields m1 msg hns
    rw [hw] at h2w
    rw [hr] at h2r
    rw [hs] at h2s
    rw [Nat.mod_eq_of_lt hk] at h2w
    have hnr : ¬ (amp_mailbox_try_send m1 msg).2.read_idx ≥
        (amp_mailbox_try_send m1 msg).2.write_idx := by
      rw [h2w, h2r]; omega
    obtain ⟨_, h3w, h3r, h3s⟩ := try_recv_fields (amp_mailbox_try_send m1 msg).2 hnr
    rw [h2w] at h3w
    rw [h2r, Nat.mod_eq_of_lt hk] at h3r
    rw [h2s] at h3s
    exact ⟨h3w, h3r, h3s⟩

/-- Field values of a successful send expressed as one mboxStep. -/
theorem mboxStep_send_fields (m : Mailbox) (msg : List Nat)
    (h : ¬ u32sub m.write_idx m.read_idx ≥ m.msg_slots) :
    (mboxStep m (MboxOp.send msg)).write_idx = (m.write_idx + 1) % U32 ∧
    (mboxStep m (MboxOp.send msg)).read_idx = m.read_idx ∧
    (mboxStep m (MboxOp.send msg)).msg_slots = m.msg_slots := by
  simp only [mboxStep]
  exact ⟨(try_send_fields m msg h).2.1, (try_send_fields m msg h).2.2.1,
    (try_send_fields m msg h).2.2.2⟩

/-- C1: evaluation of the code at the index-wrap state.  From the
fresh 4-slot mailbox that amp_mailbox_create returns, 2^32 - 1
send/recv pairs followed by one more successful send drive the indices
to write_idx = 0 (wrapped) and read_idx = 2^32 - 1, a state with one
pending message: the unsigned difference write_idx - read_idx is
1, not 0, yet amp_mailbox_try_recv reports err_empty (-1) and copies
nothing, because the source tests read_idx >= write_idx instead of
the unsigned subtraction the specification states. -/
theorem c1_try_recv_wrap_bug :
    amp_mailbox_create 1 4 = some mb0 ∧
    c1Final.write_idx = 0 ∧ c1Final.read_idx = U32 - 1 ∧
    u32sub c1Final.write_idx c1Final.read_idx = 1 ∧
    (amp_mailbox_try_recv c1Final).1 = -1 ∧
    (amp_mailbox_try_recv c1Final).2.2 = none := by
  have hU : U32 - 1 < U32 := by norm_num [U32]
  obtain ⟨hw, hr, hs⟩ := altOps_foldl [9] mb0 rfl rfl (by norm_num [mb0]) (U32 - 1) hU
  have hfin : c1Final = mboxStep ((altOps [9] (U32 - 1)).foldl mboxStep mb0) (MboxOp.send [9]) := by
    show ((altOps [9] (U32 - 1)) ++ [MboxOp.send [9]]).foldl mboxStep mb0 = _
    rw [List.foldl_append, List.foldl_cons, List.foldl_nil]
  have hns : ¬ u32sub ((altOps [9] (U32 - 1)).foldl mboxStep mb0).write_idx
      ((altOps [9] (U32 - 1)).foldl mboxStep mb0).read_idx ≥
      ((altOps [9] (U32 - 1)).foldl mboxStep mb0).msg_slots := by
    rw [hw, hr, u32sub_self, hs]
    norm_num [mb0]
  obtain ⟨hsw, hsr, _⟩ := mboxStep_send_fields _ [9] hns
  have hfw : c1Final.write_idx = 0 := by
    rw [hfin, hsw, hw]
    norm_num [U32]
  have hfr : c1Final.read_idx = U32 - 1 := by
    rw [hfin, hsr, hr]
  have hdiff : u32sub c1Final.write_idx c1Final.read_idx = 1 := by
    rw [hfw, hfr]
    norm_num [u32sub, U32]
  have hcond : c1Final.read_idx ≥ c1Final.write_idx := by
    rw [hfw, hfr]
    exact Nat.zero_le _
  have hrecv := try_recv_empty c1Final hcond
  refine ⟨rfl, hfw, hfr, hdiff, ?_, ?_⟩
  · rw [hrecv]
  · rw [hrecv]

/-! ## Arena lemmas -/

theorem roundUp8_mod8 (s : Nat) : roundUp8 s % 8 = 0 := by
  simp only [roundUp8]
  omega

theorem roundUp8_le_add7 (s : Nat) (h : s + 7 < SZ) : roundUp8 s ≤ s + 7 := by
  simp only [roundUp8, SZ] at *
  omega

theorem le_roundUp8 (s : Nat) (h : s + 7 < SZ) : s ≤ roundUp8 s := by
  simp only [roundUp8, SZ] at *
  omega

/-- Failure characterization of one amp_shmem_alloc call, on states
where the size_t additions cannot wrap. -/
theorem alloc_none_iff (p : Pool) (s : Nat) (hle : p.allocated ≤ p.size)
    (hnw : p.size + s + 7 < SZ) :
    (amp_shmem_alloc p s).2 = none ↔
      s = 0 ∨ p.base = 0 ∨ p.size < p.allocated + roundUp8 s := by
  simp only [amp_shmem_alloc]
  by_cases h0 : s = 0 ∨ p.base = 0
  · rw [if_pos h0]
    simp only [iff_true_intro h0]
    tauto
  · rw [if_neg h0]
    push_neg at h0
    have hr8 : roundUp8 s ≤ s + 7 := roundUp8_le_add7 s (by omega)
    have hmod : (p.allocated + roundUp8 s) % SZ = p.allocated + roundUp8 s :=
      Nat.mod_eq_of_lt (by omega)
    rw [hmod]
    by_cases hc : p.allocated + roundUp8 s > p.size
    · rw [if_pos hc]
      simp only [eq_self_iff_true, true_iff]
      right; right; exact hc
    · rw [if_neg hc]
      constructor
      · intro h
        exact absurd h (by simp)
      · intro h
        rcases h with h | h | h
        · exact absurd h h0.1
        · exact absurd h h0.2
        · omega

/-- A successful amp_shmem_alloc call returns base + allocated and
advances allocated by the rounded size (no size_t wrap on such
states). -/
theorem alloc_some_fields (p : Pool) (s : Nat) (h0 : ¬ s = 0) (hb : ¬ p.base = 0)
    (hle : p.allocated ≤ p.size) (hnw : p.size + s + 7 < SZ)
    (hfit : p.allocated + roundUp8 s ≤ p.size) :
    amp_shmem_alloc p s =
      ({ p with allocated := p.allocated + roundUp8 s }, some (p.base + p.allocated)) := by
  simp only [amp_shmem_alloc]
  rw [if_neg (by tauto)]
  have hr8 : roundUp8 s ≤ s + 7 := roundUp8_le_add7 s (by omega)
  have hmod : (p.allocated + roundUp8 s) % SZ = p.allocated + roundUp8 s :=
    Nat.mod_eq_of_lt (by omega)
  rw [hmod, if_neg (by omega)]

/-- Exact behavior of a fully successful allocation run, by induction
on the request list. -/
theorem allocTrace_exact (ss : List Nat) : ∀ (p : Pool),
    p.base ≠ 0 → p.allocated ≤ p.size →
    (∀ s ∈ ss, 0 < s) → (∀ s ∈ ss, p.size + s + 7 < SZ) →
    (∀ r ∈ (allocTrace p ss).2, r ≠ none) →
    (allocTrace p ss).2 = (expectedAddrs p.base p.allocated ss).map some ∧
    (allocTrace p ss).1 = { p with allocated := p.allocated + (ss.map roundUp8).sum } ∧
    p.allocated + (ss.map roundUp8).sum ≤ p.size := by
  induction ss with
  | nil =>
    intro p hb hle _ _ _
    refine ⟨rfl, ?_, by simpa using hle⟩
    show p = { p with allocated := p.allocated + ([] : List Nat).sum }
    simp
  | cons s rest ih =>
    intro p hb hle hpos hnw hsucc
    have hs0 : 0 < s := hpos s (List.mem_cons_self s rest)
    have hnw0 : p.size + s + 7 < SZ := hnw s (List.mem_cons_self s rest)
    simp only [allocTrace] at hsucc
    have hhead : (amp_shmem_alloc p s).2 ≠ none :=
      hsucc (amp_shmem_alloc p s).2 (List.mem_cons_self _ _)
    have hfit : p.allocated + roundUp8 s ≤ p.size := by
      rcases Nat.lt_or_ge p.size (p.allocated + roundUp8 s) with hlt | hge
      · exact absurd ((alloc_none_iff p s hle hnw0).mpr (Or.inr (Or.inr hlt))) hhead
      · exact hge
    have halloc := alloc_some_fields p s (by omega) hb hle hnw0 hfit
    have htail := ih { p with allocated := p.allocated + roundUp8 s }
      hb hfit (fun x hx => hpos x (List.mem_cons_of_mem s hx))
      (fun x hx => hnw x (List.mem_cons_of_mem s hx))
      (by
        intro r hr
        apply hsucc
        rw [halloc]
        exact List.mem_cons_of_mem _ hr)
    obtain ⟨ht2, ht1, htb⟩ := htail
    dsimp only at ht2 ht1 htb
    refine ⟨?_, ?_, ?_⟩
    · show (allocTrace p (s :: rest)).2 = _
      simp only [allocTrace, halloc, expectedAddrs, List.map_cons]
      exact congrArg (List.cons _) ht2
    · show (allocTrace p (s :: rest)).1 = _
      simp only [allocTrace, halloc]
      rw [ht1]
      simp only [List.map_cons, List.sum_cons]
      congr 1
      omega
    · simp only [List.map_cons, List.sum_cons]
      omega

/-- The expected addresses form consecutive in-pool ranges. -/
theorem expectedAddrs_rangesOk (base size : Nat) : ∀ (ss : List Nat) (a0 : Nat),
    a0 + (ss.map roundUp8).sum ≤ size →
    rangesOk (base + a0) (base + size) ((expectedAddrs base a0 ss).zip (ss.map roundUp8)) := by
  intro ss
  induction ss with
  | nil => intro a0 _; exact trivial
  | cons s rest ih =>
    intro a0 h
    simp only [List.map_cons, List.sum_cons] at h
    refine ⟨Nat.le_refl _, by omega, ?_⟩
    have h2 := ih (a0 + roundUp8 s) (by omega)
    rw [← Nat.add_assoc] at h2
    exact h2

/-- Consecutive ranges are within bounds and pairwise disjoint. -/
theorem rangesOk_within_disjoint : ∀ (l : List (Nat × Nat)) (lo hi : Nat),
    rangesOk lo hi l →
    (∀ q ∈ l, lo ≤ q.1 ∧ q.1 + q.2 ≤ hi) ∧
    l.Pairwise (fun x y => x.1 + x.2 ≤ y.1) := by
  intro l
  induction l with
  | nil =>
    intro lo hi _
    refine ⟨?_, List.Pairwise.nil⟩
    intro q hq
    cases hq
  | cons q rest ih =>
    intro lo hi h
    obtain ⟨h1, h2, h3⟩ := h
    obtain ⟨hin, hpw⟩ := ih (q.1 + q.2) hi h3
    constructor
    · intro x hx
      rcases List.mem_cons.mp hx with rfl | hx2
      · exact ⟨h1, h2⟩
      · have hx3 := hin x hx2
        exact ⟨by omega, hx3.2⟩
    · exact List.Pairwise.cons (fun y hy => (hin y hy).1) hpw

/-- Every expected address is base plus a multiple of 8. -/
theorem expectedAddrs_aligned (base : Nat) : ∀ (ss : List Nat) (a0 : Nat), a0 % 8 = 0 →
    ∀ a ∈ expectedAddrs base a0 ss, ∃ k, a = base + 8 * k := by
  intro ss
  induction ss with
  | nil => intro a0 _ a ha; cases ha
  | cons s rest ih =>
    intro a0 h8 a ha
    rcases List.mem_cons.mp ha with rfl | ha2
    · exact ⟨a0 / 8, by omega⟩
    · exact ih (a0 + roundUp8 s) (by have := roundUp8_mod8 s; omega) a ha2

/-- C3 counterexample, refuting two clauses of the claim as stated.
First, the alignment clause: on the pool initialized at the unaligned
base address 1, the first allocation returns address 1, which is not
8-byte aligned (amp_shmem_init performs no alignment check on base).
Second, the null-exactly-when and disjointness clauses, through size_t
wrap: at the request s = 2^64 - 7 the mathematical round_up(s, 8) is
2^64, which exceeds the pool size 16, so the claim requires null; but
the source computes (s + 7) and ~7 in size_t, which wraps to 0, so on
the pool at base 8 of size 16 the call succeeds, returns address 8,
advances allocated by nothing, and an identical second call succeeds
again with the same address 8 --- two successful allocations whose
returned ranges (of rounded size 2^64) coincide instead of being
disjoint, and whose sum of rounded sizes is not the allocated
counter. -/
theorem c3_claim_counterexample :
    ((amp_shmem_alloc (amp_shmem_init { base := 0, size := 0, allocated := 0 } 1 16).1 8).2
      = some 1 ∧ 1 % 8 ≠ 0) ∧
    (roundUp8exact (SZ - 7) = SZ ∧ SZ > 16 ∧
     roundUp8 (SZ - 7) = 0 ∧
     (amp_shmem_alloc { base := 8, size := 16, allocated := 0 } (SZ - 7)).2 = some 8 ∧
     (amp_shmem_alloc { base := 8, size := 16, allocated := 0 } (SZ - 7)).1
       = { base := 8, size := 16, allocated := 0 } ∧
     (amp_shmem_alloc
        (amp_shmem_alloc { base := 8, size := 16, allocated := 0 } (SZ - 7)).1
        (SZ - 7)).2 = some 8) := by
  refine ⟨⟨rfl, by decide⟩, rfl, by decide, rfl, rfl, rfl, rfl⟩

/-- C3 (amended): on a freshly initialized pool with non-null base,
after any fully successful allocation run with positive request sizes
(and no size_t wrap), the allocated counter is the sum of the rounded
sizes, the addresses are base plus the prefix sums in order, all
ranges are inside the pool and pairwise disjoint, every address is
base plus a multiple of 8 (absolute 8-byte alignment amended to
base-relative), and a single alloc fails exactly on size 0, an
uninitialized pool, or an out-of-space request. -/
theorem c3_arena_monotonic_amended (base size : Nat) (ss : List Nat)
    (hb : base ≠ 0) (hpos : ∀ s ∈ ss, 0 < s) (hnw : ∀ s ∈ ss, size + s + 7 < SZ)
    (hsucc : ∀ r ∈ (allocTrace { base := base, size := size, allocated := 0 } ss).2,
      r ≠ none) :
    shmemAllocSpec base size ss := by
  obtain ⟨ht2, ht1, htb⟩ :=
    allocTrace_exact ss { base := base, size := size, allocated := 0 }
      hb (Nat.zero_le _) hpos hnw hsucc
  dsimp only at ht2 ht1 htb
  have hsum : (ss.map roundUp8).sum ≤ size := by omega
  have hro := expectedAddrs_rangesOk base size ss 0 (by omega)
  rw [Nat.add_zero] at hro
  obtain ⟨hin, hpw⟩ := rangesOk_within_disjoint _ _ _ hro
  refine ⟨?_, hsum, ht2, hin, hpw, ?_, ?_⟩
  · rw [ht1]
    simp
  · exact expectedAddrs_aligned base ss 0 rfl
  · intro p s hle hnw2
    exact alloc_none_iff p s hle hnw2

theorem c3_witness : shmemAllocSpec 1 32 [1, 9] :=
  c3_arena_monotonic_amended 1 32 [1, 9] (by decide) (by decide) (by decide) (by decide)

/-- Base and 8-divisibility of allocated are maintained by every
alloc call, successful or not. -/
theorem alloc_state_aligned (p : Pool) (s : Nat) :
    (amp_shmem_alloc p s).1.base = p.base ∧
    (p.allocated % 8 = 0 → (amp_shmem_alloc p s).1.allocated % 8 = 0) := by
  simp only [amp_shmem_alloc]
  by_cases h0 : s = 0 ∨ p.base = 0
  · rw [if_pos h0]
    exact ⟨rfl, fun h => h⟩
  · rw [if_neg h0]
    by_cases hc : (p.allocated + roundUp8 s) % SZ > p.size
    · rw [if_pos hc]
      exact ⟨rfl, fun h => h⟩
    · rw [if_neg hc]
      refine ⟨rfl, fun h => ?_⟩
      show (p.allocated + roundUp8 s) % SZ % 8 = 0
      rw [Nat.mod_mod_of_dvd _ (by norm_num [SZ])]
      have := roundUp8_mod8 s
      omega

/-- Every some-result in an allocation trace is base plus an
8-multiple offset. -/
theorem allocTrace_addr_aligned (ss : List Nat) : ∀ (p : Pool), p.allocated % 8 = 0 →
    ∀ r ∈ (allocTrace p ss).2, ∀ a, r = some a → a % 8 = p.base % 8 ∧ p.base ≤ a := by
  induction ss with
  | nil =>
    intro p _ r hr
    cases hr
  | cons s rest ih =>
    intro p h8 r hr a hra
    simp only [allocTrace] at hr
    rcases List.mem_cons.mp hr with rfl | hr2
    · simp only [amp_shmem_alloc] at hra
      by_cases h0 : s = 0 ∨ p.base = 0
      · rw [if_pos h0] at hra
        cases hra
      · rw [if_neg h0] at hra
        by_cases hc : (p.allocated + roundUp8 s) % SZ > p.size
        · rw [if_pos hc] at hra
          cases hra
        · rw [if_neg hc] at hra
          have ha : a = p.base + p.allocated := (Option.some.injEq _ _).mp hra.symm
          constructor
          · omega
          · omega
    · have hst := alloc_state_aligned p s
      have := ih (amp_shmem_alloc p s).1 (hst.2 h8) r hr2 a hra
      rw [hst.1] at this
      exact this

/-- C9: amp_shmem_init accepts the unaligned base 1 (no alignment
check), and every pointer amp_shmem_alloc returns is pool base plus a
multiple of 8, hence absolutely 8-byte aligned exactly when the
caller supplied an 8-byte-aligned base. -/
theorem c9_alloc_alignment_relative (base size : Nat) (ss : List Nat)
    (hb : base ≠ 0) (hs : size ≠ 0) : shmemAlignSpec base size ss := by
  constructor
  · simp only [amp_shmem_init]
    rw [if_neg (by tauto)]
  · intro r hr a hra
    have key := allocTrace_addr_aligned ss { base := base, size := size, allocated := 0 }
      (by simp) r hr a hra
    dsimp only at key
    obtain ⟨hmod, hle⟩ := key
    constructor
    · exact ⟨(a - base) / 8, by omega⟩
    · omega

theorem c9_witness : shmemAlignSpec 1 16 [3] :=
  c9_alloc_alignment_relative 1 16 [3] (by decide) (by decide)

/-! ## Semaphore lemmas -/

/-- The semaphore run invariant: conservation of successful operations
against the count, the count bound, and the constancy of max_count. -/
def semInv (initial max : Nat) (st : SemRun) : Prop :=
  st.posts + initial = st.waits + st.sem.count ∧ st.sem.count ≤ max ∧
  st.sem.max_count = max

theorem semStep_tryWait_zero (st : SemRun) (hc : st.sem.count = 0) :
    semStep st SemOp.tryWait = st := by
  simp only [semStep, amp_semaphore_try_wait, if_pos hc]
  norm_num

theorem semStep_tryWait_pos (st : SemRun) (hc : ¬ st.sem.count = 0) :
    semStep st SemOp.tryWait =
      { st with sem := { st.sem with count := st.sem.count - 1 },
                waits := st.waits + 1 } := by
  simp only [semStep, amp_semaphore_try_wait, if_neg hc]
  norm_num

theorem semStep_post_full (st : SemRun) (hc : st.sem.count ≥ st.sem.max_count) :
    semStep st SemOp.post = st := by
  simp only [semStep, amp_semaphore_post, if_pos hc]
  norm_num

theorem semStep_post_ok (st : SemRun) (hc : ¬ st.sem.count ≥ st.sem.max_count) :
    semStep st SemOp.post =
      { st with sem := { st.sem with count := st.sem.count + 1 },
                posts := st.posts + 1 } := by
  simp only [semStep, amp_semaphore_post, if_neg hc]
  norm_num

theorem semStep_inv (initial max : Nat) (st : SemRun) (op : SemOp)
    (h : semInv initial max st) : semInv initial max (semStep st op) := by
  obtain ⟨h1, h2, h3⟩ := h
  cases op with
  | tryWait =>
    by_cases hc : st.sem.count = 0
    · rw [semStep_tryWait_zero st hc]
      exact ⟨h1, h2, h3⟩
    · rw [semStep_tryWait_pos st hc]
      refine ⟨?_, ?_, h3⟩ <;> dsimp only <;> omega
  | post =>
    by_cases hc : st.sem.count ≥ st.sem.max_count
    · rw [semStep_post_full st hc]
      exact ⟨h1, h2, h3⟩
    · rw [semStep_post_ok st hc]
      refine ⟨?_, ?_, h3⟩ <;> dsimp only <;> omega

theorem semFoldl_inv (initial max : Nat) (ops : List SemOp) :
    ∀ st, semInv initial max st → semInv initial max (ops.foldl semStep st) := by
  induction ops with
  | nil => intro st h; exact h
  | cons op rest ih => intro st h; exact ih _ (semStep_inv initial max st op h)

/-- C4: for every semaphore created with initial ≤ max and max ≥ 1 and
every operation sequence, after every prefix the number of successful
posts minus successful waits equals count minus initial (stated
additively over Nat) and 0 ≤ count ≤ max; try_wait fails exactly when
it observes count 0 and post fails exactly when it observes
count ≥ max_count. -/
theorem c4_semaphore_conservation (initial max : Nat) (ops : List SemOp)
    (h1 : initial ≤ max) (h2 : 1 ≤ max) :
    amp_semaphore_create initial max = some { count := initial, max_count := max } ∧
    semRunSpec initial max ops := by
  constructor
  · simp only [amp_semaphore_create]
    rw [if_neg (by omega)]
  · refine ⟨?_, ?_, ?_⟩
    · intro n
      have hinv : semInv initial max (semRun0 initial max) := by
        refine ⟨?_, ?_, ?_⟩ <;> simp [semRun0]
        omega
      have h := semFoldl_inv initial max (ops.take n) (semRun0 initial max) hinv
      exact ⟨h.1, h.2.1⟩
    · intro s
      simp only [amp_semaphore_try_wait]
      by_cases hc : s.count = 0
      · rw [if_pos hc]
        simp [hc]
      · rw [if_neg hc]
        simp [hc]
    · intro s
      simp only [amp_semaphore_post]
      by_cases hc : s.count ≥ s.max_count
      · rw [if_pos hc]
        simp [hc]
      · rw [if_neg hc]
        simp
        omega

theorem c4_witness :
    amp_semaphore_create 1 2 = some { count := 1, max_count := 2 } ∧
    semRunSpec 1 2 [SemOp.post, SemOp.tryWait] :=
  c4_semaphore_conservation 1 2 [SemOp.post, SemOp.tryWait] (by decide) (by decide)

/-- C10: amp_semaphore_get_count returns 0 on a NULL handle, the same
value it returns on a valid semaphore whose count is 0 (for any
max_count), so the two are indistinguishable through this accessor. -/
theorem c10_get_count_null_indistinguishable (m : Nat) :
    amp_semaphore_get_count none = 0 ∧
    amp_semaphore_get_count (some { count := 0, max_count := m }) =
      amp_semaphore_get_count none :=
  ⟨rfl, rfl⟩

/-! ## Boot lemmas -/

theorem U32_eq_pow : U32 = 2 ^ 32 := by norm_num [U32]

/-- C7 counterexample: from the fresh boot state, core 1 signaling
ready sets bit 1; a subsequent amp_boot_init on the primary core
clears it (the source stores 0 to core_ready_flags and then sets only
bit 0), so a set ready bit does not survive amp_boot_init. -/
theorem c7_boot_init_clears_ready_bit :
    (amp_boot_signal_ready 1 { core_ready_flags := 0 }).core_ready_flags.testBit 1
      = true ∧
    (amp_boot_init 0
        (amp_boot_signal_ready 1 { core_ready_flags := 0 })).2.core_ready_flags.testBit 1
      = false := by
  constructor
  · rfl
  · rfl

/-- C7 (amended): a set ready bit survives amp_boot_core,
amp_boot_wait_core_ready and amp_boot_signal_ready performed by any
core; amp_boot_init run on the primary core instead resets the flags
word to exactly bit 0 (clearing every other bit) and leaves the state
unchanged on any other core. -/
theorem c7_boot_bits_amended (st : BootState) (i c t : Nat)
    (hwf : st.core_ready_flags < U32) (h : st.core_ready_flags.testBit i = true) :
    bootPreserveSpec st i c t := by
  have hi : i < 32 := by
    by_contra hge
    push_neg at hge
    have hlt : st.core_ready_flags < 2 ^ i := by
      calc st.core_ready_flags < U32 := hwf
        _ = 2 ^ 32 := U32_eq_pow
        _ ≤ 2 ^ i := Nat.pow_le_pow_right (by norm_num) hge
    rw [Nat.testBit_lt_two_pow hlt] at h
    cases h
  refine ⟨?_, ?_, ?_, ?_⟩
  · simp only [amp_boot_core]
    split
    · exact h
    · exact h
  · simp only [amp_boot_wait_core_ready]
    split
    · exact h
    · split
      · exact h
      · split
        · exact h
        · exact h
  · show ((st.core_ready_flags ||| 1 <<< c) % U32).testBit i = true
    rw [U32_eq_pow, Nat.testBit_mod_two_pow]
    simp only [Nat.testBit_or, h, Bool.true_or, Bool.and_true]
    simp [hi]
  · intro c2
    by_cases hc2 : c2 = 0
    · rw [if_pos hc2]
      simp only [amp_boot_init]
      rw [if_neg (by simp [hc2])]
      rfl
    · rw [if_neg hc2]
      simp only [amp_boot_init]
      rw [if_pos hc2]

theorem c7_witness : bootPreserveSpec { core_ready_flags := 2 } 1 1 0 :=
  c7_boot_bits_amended { core_ready_flags := 2 } 1 1 0 (by norm_num [U32]) (by decide)

/-! ## Blocking send on a NULL handle -/

theorem sendNullLoop_zero_timeout (fuel : Nat) :
    ∀ count, sendNullLoop fuel 0 count = none := by
  induction fuel with
  | zero => intro count; rfl
  | succ f ih =>
    intro count
    simp only [sendNullLoop]
    rw [if_neg (by omega)]
    exact ih count

/-- C8: with a NULL mailbox handle, every amp_mailbox_try_send attempt
fails with -1, and amp_mailbox_send with timeout_ms = 0 never returns
(the loop has not produced a result within any number of iterations):
the null handle is not a pre-check of amp_mailbox_send and the failure
is not reported as a return value in the wait-forever case. -/
theorem c8_send_null_hangs_with_zero_timeout :
    (∀ msg, (amp_mailbox_try_send_opt none msg).1 = -1) ∧
    (∀ fuel, amp_mailbox_send_null 0 fuel = none) := by
  constructor
  · intro msg
    cases msg <;> rfl
  · intro fuel
    show sendNullLoop fuel 0 (0 * 1000 % U32) = none
    exact sendNullLoop_zero_timeout fuel _

/-! ## Ring-buffer lemmas -/

theorem u32sub_lt (a b : Nat) : u32sub a b < U32 :=
  Nat.mod_lt _ U32_pos

/-- On well-formed states the size_t subtraction in
amp_ringbuf_free_space cannot wrap. -/
theorem rb_free_space_of_wf (rb : Ringbuf) (h : rbWF rb) :
    amp_ringbuf_free_space rb = rb.size - amp_ringbuf_available rb := by
  obtain ⟨hw, hr, hs, ha⟩ := h
  simp only [amp_ringbuf_free_space]
  simp only [U32] at hs
  simp only [SZ]
  omega

theorem write_zero (rb : Ringbuf) (src : List Nat) :
    amp_ringbuf_write rb src 0 = (0, rb) := rfl

theorem read_zero (rb : Ringbuf) : amp_ringbuf_read rb 0 = (0, [], rb) := rfl

/-- Field values of a nonzero-length amp_ringbuf_write. -/
theorem write_fields (rb : Ringbuf) (src : List Nat) (len : Nat) (hlen : len ≠ 0) :
    (amp_ringbuf_write rb src len).1 = min len (amp_ringbuf_free_space rb) ∧
    (amp_ringbuf_write rb src len).2.write_idx
      = (rb.write_idx + min len (amp_ringbuf_free_space rb)) % U32 ∧
    (amp_ringbuf_write rb src len).2.read_idx = rb.read_idx ∧
    (amp_ringbuf_write rb src len).2.size = rb.size ∧
    (amp_ringbuf_write rb src len).2.mask = rb.mask ∧
    (amp_ringbuf_write rb src len).2.data
      = writeBytes rb.data rb.write_idx rb.mask
          ((List.range (min len (amp_ringbuf_free_space rb))).map
            (fun i => src.getD i 0)) := by
  simp only [amp_ringbuf_write]
  rw [if_neg hlen]
  exact ⟨rfl, rfl, rfl, rfl, rfl, rfl⟩

/-- Field values of a nonzero-length amp_ringbuf_read. -/
theorem read_fields (rb : Ringbuf) (len : Nat) (hlen : len ≠ 0) :
    (amp_ringbuf_read rb len).1 = min len (amp_ringbuf_available rb) ∧
    (amp_ringbuf_read rb len).2.1
      = (List.range (min len (amp_ringbuf_available rb))).map
          (fun i => rb.data ((rb.read_idx + i) &&& rb.mask)) ∧
    (amp_ringbuf_read rb len).2.2.read_idx
      = (rb.read_idx + min len (amp_ringbuf_available rb)) % U32 ∧
    (amp_ringbuf_read rb len).2.2.write_idx = rb.write_idx ∧
    (amp_ringbuf_read rb len).2.2.size = rb.size := by
  simp only [amp_ringbuf_read]
  rw [if_neg hlen]
  exact ⟨rfl, rfl, rfl, rfl, rfl⟩

/-- C6: for every well-formed ring-buffer state, write transfers and
returns exactly min(len, size - (write_idx - read_idx)) bytes and read
exactly min(len, write_idx - read_idx) bytes, each advancing only its
own index by the transferred count; NULL handle, NULL data, or zero
length return 0 without error. -/
theorem c6_ringbuf_transfer_counts (rb : Ringbuf) (src : List Nat) (len : Nat)
    (h : rbWF rb) : rbCountSpec rb src len := by
  obtain ⟨hw, hr, hs, ha⟩ := h
  have hfree := rb_free_space_of_wf rb ⟨hw, hr, hs, ha⟩
  have W : (amp_ringbuf_write rb src len).1
        = min len (rb.size - amp_ringbuf_available rb) ∧
      (amp_ringbuf_write rb src len).2.write_idx
        = (rb.write_idx + min len (rb.size - amp_ringbuf_available rb)) % U32 ∧
      (amp_ringbuf_write rb src len).2.read_idx = rb.read_idx := by
    by_cases hl : len = 0
    · subst hl
      rw [write_zero]
      refine ⟨by simp, ?_, rfl⟩
      simp [Nat.mod_eq_of_lt hw]
    · obtain ⟨a, b, c, _, _, _⟩ := write_fields rb src len hl
      rw [hfree] at a b
      exact ⟨a, b, c⟩
  have R : (amp_ringbuf_read rb len).1 = min len (amp_ringbuf_available rb) ∧
      (amp_ringbuf_read rb len).2.1.length = min len (amp_ringbuf_available rb) ∧
      (amp_ringbuf_read rb len).2.2.read_idx
        = (rb.read_idx + min len (amp_ringbuf_available rb)) % U32 ∧
      (amp_ringbuf_read rb len).2.2.write_idx = rb.write_idx := by
    by_cases hl : len = 0
    · subst hl
      rw [read_zero]
      refine ⟨by simp, by simp, ?_, rfl⟩
      simp [Nat.mod_eq_of_lt hr]
    · obtain ⟨a, b, c, d, _⟩ := read_fields rb len hl
      refine ⟨a, ?_, c, d⟩
      rw [b]
      simp
  refine ⟨W.1, W.2.1, W.2.2, R.1, R.2.1, R.2.2.1, R.2.2.2, ?_, ?_, ?_, ?_, ?_, ?_⟩
  · intro s2 l2
    cases s2 <;> rfl
  · intro l2
    rfl
  · rw [write_zero]
  · intro b l2
    cases b <;> rfl
  · intro l2
    rfl
  · rw [read_zero]

theorem c6_witness :
    rbCountSpec { write_idx := 2, read_idx := 1, size := 4, mask := 3,
                  data := fun _ => 0 } [7, 7] 3 :=
  c6_ringbuf_transfer_counts _ [7, 7] 3 (by decide)

theorem freshRB_write_idx (s m : Nat) (d0 : Nat → Nat) :
    (freshRB s m d0).write_idx = 0 := rfl

theorem freshRB_read_idx (s m : Nat) (d0 : Nat → Nat) :
    (freshRB s m d0).read_idx = 0 := rfl

theorem freshRB_size (s m : Nat) (d0 : Nat → Nat) : (freshRB s m d0).size = s := rfl

theorem freshRB_mask (s m : Nat) (d0 : Nat → Nat) : (freshRB s m d0).mask = m := rfl

theorem freshRB_data (s m : Nat) (d0 : Nat → Nat) : (freshRB s m d0).data = d0 := rfl

theorem upd_same (f : Nat → Nat) (a v : Nat) : upd f a v a = v := by
  simp [upd]

theorem upd_other (f : Nat → Nat) (a v j : Nat) (h : j ≠ a) : upd f a v j = f j := by
  simp [upd, h]

/-- Evaluation of the sequential byte-copy loop when the target
addresses of the window are pairwise distinct: position i of the
window holds byte i, and addresses outside the window are untouched. -/
theorem writeBytes_spec (mask : Nat) : ∀ (bytes : List Nat) (d : Nat → Nat) (w : Nat),
    (∀ i1 i2, i1 < bytes.length → i2 < bytes.length →
      (w + i1) &&& mask = (w + i2) &&& mask → i1 = i2) →
    (∀ i, i < bytes.length →
      writeBytes d w mask bytes ((w + i) &&& mask) = bytes.getD i 0) ∧
    (∀ a, (∀ i, i < bytes.length → (w + i) &&& mask ≠ a) →
      writeBytes d w mask bytes a = d a) := by
  intro bytes
  induction bytes with
  | nil =>
    intro d w _
    refine ⟨?_, ?_⟩
    · intro i hi
      exact absurd hi (Nat.not_lt_zero i)
    · intro a _
      rfl
  | cons b rest ih =>
    intro d w hinj
    have hinj2 : ∀ i1 i2, i1 < rest.length → i2 < rest.length →
        (w + 1 + i1) &&& mask = (w + 1 + i2) &&& mask → i1 = i2 := by
      intro i1 i2 hi1 hi2 he
      have e1 : w + (i1 + 1) = w + 1 + i1 := by omega
      have e2 : w + (i2 + 1) = w + 1 + i2 := by omega
      have := hinj (i1 + 1) (i2 + 1) (by simp; omega) (by simp; omega)
        (by rw [e1, e2]; exact he)
      omega
    obtain ⟨ih1, ih2⟩ := ih (upd d (w &&& mask) b) (w + 1) hinj2
    constructor
    · intro i hi
      cases i with
      | zero =>
        show writeBytes (upd d (w &&& mask) b) (w + 1) mask rest ((w + 0) &&& mask) = b
        have hna : ∀ i2, i2 < rest.length → (w + 1 + i2) &&& mask ≠ (w + 0) &&& mask := by
          intro i2 h2 he
          have := hinj (i2 + 1) 0 (by simp; omega) (by simp)
            (by rw [show w + (i2 + 1) = w + 1 + i2 by omega]; exact he)
          omega
        rw [ih2 _ hna, show (w + 0) &&& mask = w &&& mask by rw [Nat.add_zero]]
        exact upd_same d (w &&& mask) b
      | succ j =>
        show writeBytes (upd d (w &&& mask) b) (w + 1) mask rest ((w + (j + 1)) &&& mask)
          = (b :: rest).getD (j + 1) 0
        have hj : j < rest.length := by
          simp only [List.length_cons] at hi
          omega
        rw [show w + (j + 1) = w + 1 + j by omega, ih1 j hj]
        rfl
    · intro a hna
      show writeBytes (upd d (w &&& mask) b) (w + 1) mask rest a = d a
      have hna2 : ∀ i, i < rest.length → (w + 1 + i) &&& mask ≠ a := by
        intro i hi2
        have := hna (i + 1) (by simp; omega)
        rw [show w + (i + 1) = w + 1 + i by omega] at this
        exact this
      rw [ih2 a hna2]
      refine upd_other d (w &&& mask) b a ?_
      have := hna 0 (by simp)
      rw [Nat.add_zero] at this
      exact fun he => this he.symm

/-- The map i to (w + i) mod 2^k is injective on a window of length at
most 2^k. -/
theorem window_inj (k n : Nat) (hn : n ≤ 2 ^ k) (w : Nat) :
    ∀ i1 i2, i1 < n → i2 < n →
      (w + i1) &&& (2 ^ k - 1) = (w + i2) &&& (2 ^ k - 1) → i1 = i2 := by
  intro i1 i2 h1 h2 he
  rw [Nat.and_pow_two_sub_one_eq_mod, Nat.and_pow_two_sub_one_eq_mod] at he
  have hmeq : i1 ≡ i2 [MOD 2 ^ k] := Nat.ModEq.add_left_cancel' w he
  have e1 : i1 % 2 ^ k = i1 := Nat.mod_eq_of_lt (lt_of_lt_of_le h1 hn)
  have e2 : i2 % 2 ^ k = i2 := Nat.mod_eq_of_lt (lt_of_lt_of_le h2 hn)
  rw [Nat.ModEq, e1, e2] at hmeq
  exact hmeq

/-- Reading a list back positionally reproduces it. -/
theorem range_map_getD (l : List Nat) :
    (List.range l.length).map (fun i => l.getD i 0) = l := by
  apply List.ext_getElem
  · simp
  · intro i h1 h2
    simp [List.getD_eq_getElem?_getD, List.getElem?_eq_getElem h2]

/-- Round trip on a fresh power-of-two buffer with normalized size and
mask fields. -/
theorem roundtrip_core (k : Nat) (hk : k < 32) (data : List Nat) (d0 : Nat → Nat)
    (h1 : 1 ≤ data.length) (h2 : data.length ≤ 2 ^ k) :
    rbRoundTripSpec (freshRB (2 ^ k) (2 ^ k - 1) d0) data := by
  have hS32 : 2 ^ k < U32 := by
    rw [U32_eq_pow]
    exact Nat.pow_lt_pow_right (by norm_num) hk
  have hlen0 : data.length ≠ 0 := by omega
  have hlenU : data.length < U32 := lt_of_le_of_lt h2 hS32
  have hwfL : rbWF (freshRB (2 ^ k) (2 ^ k - 1) d0) := by
    refine ⟨by norm_num [freshRB, U32], by norm_num [freshRB, U32], hS32, ?_⟩
    show u32sub 0 0 ≤ _
    rw [u32sub_self]
    exact Nat.zero_le _
  have havail0 : amp_ringbuf_available (freshRB (2 ^ k) (2 ^ k - 1) d0) = 0 := by
    show u32sub 0 0 = 0
    exact u32sub_self 0
  have hfree : amp_ringbuf_free_space (freshRB (2 ^ k) (2 ^ k - 1) d0) = 2 ^ k := by
    rw [rb_free_space_of_wf _ hwfL, havail0, freshRB_size, Nat.sub_zero]
  obtain ⟨hwc, hww, hwr, hws, hwm, hwd⟩ :=
    write_fields (freshRB (2 ^ k) (2 ^ k - 1) d0) data data.length hlen0
  rw [hfree, Nat.min_eq_left h2] at hwc hww hwd
  rw [freshRB_write_idx] at hww
  rw [freshRB_read_idx] at hwr
  rw [freshRB_size] at hws
  rw [freshRB_mask] at hwm
  simp only [freshRB_write_idx, freshRB_mask, freshRB_data] at hwd
  rw [Nat.zero_add, Nat.mod_eq_of_lt hlenU] at hww
  rw [range_map_getD] at hwd
  have havailW : amp_ringbuf_available
      (amp_ringbuf_write (freshRB (2 ^ k) (2 ^ k - 1) d0) data data.length).2
        = data.length := by
    simp only [amp_ringbuf_available]
    rw [hww, hwr, u32sub_of_le _ _ hlenU (Nat.zero_le _), Nat.sub_zero]
  obtain ⟨hrc, hrout, _, _, _⟩ :=
    read_fields (amp_ringbuf_write (freshRB (2 ^ k) (2 ^ k - 1) d0)
      data data.length).2 data.length hlen0
  rw [havailW, Nat.min_self] at hrc hrout
  simp only [hwr, hwm, hwd] at hrout
  have hfinal : (List.range data.length).map
      (fun i => writeBytes d0 0 (2 ^ k - 1) data ((0 + i) &&& (2 ^ k - 1))) = data := by
    obtain ⟨hget, _⟩ :=
      writeBytes_spec (2 ^ k - 1) data d0 0 (window_inj k data.length h2 0)
    have step1 : (List.range data.length).map
        (fun i => writeBytes d0 0 (2 ^ k - 1) data ((0 + i) &&& (2 ^ k - 1)))
          = (List.range data.length).map (fun i => data.getD i 0) := by
      apply List.map_congr_left
      intro i hi
      exact hget i (List.mem_range.mp hi)
    exact step1.trans (range_map_getD data)
  exact ⟨hwc, hrc, hrout.trans hfinal⟩

/-- C5: on a freshly created ring buffer of power-of-two capacity
c = 2^k (a uint32_t value, so c < 2^32) and any byte sequence with
1 ≤ length ≤ c, amp_ringbuf_write reports the full length written and
an immediately following amp_ringbuf_read of that length returns the
identical bytes. -/
theorem c5_ringbuf_roundtrip (k : Nat) (hk : k < 32) (data : List Nat)
    (h1 : 1 ≤ data.length) (h2 : data.length ≤ 2 ^ k) :
    ∀ rb0 ∈ amp_ringbuf_create (2 ^ k), rbRoundTripSpec rb0 data := by
  have hS32 : 2 ^ k < U32 := by
    rw [U32_eq_pow]
    exact Nat.pow_lt_pow_right (by norm_num) hk
  intro rb0 hm
  rw [Option.mem_def, amp_ringbuf_create] at hm
  have hcnd : ¬ ((2 : Nat) ^ k = 0 ∨ (2 : Nat) ^ k &&& (2 ^ k - 1) ≠ 0) := by
    push_neg
    refine ⟨by positivity, ?_⟩
    rw [Nat.and_pow_two_sub_one_eq_mod]
    exact Nat.mod_self _
  rw [if_neg hcnd] at hm
  have hrb : rb0 = freshRB (2 ^ k % U32) ((2 ^ k - 1) % U32) (fun _ => 0) :=
    ((Option.some.injEq _ _).mp hm).symm
  subst hrb
  rw [Nat.mod_eq_of_lt hS32, Nat.mod_eq_of_lt (by omega)]
  exact roundtrip_core k hk data (fun _ => 0) h1 h2

theorem c5_witness : rbRoundTripSpec (freshRB 4 3 (fun _ => 0)) [1, 2, 3] :=
  c5_ringbuf_roundtrip 2 (by decide) [1, 2, 3] (by decide) (by decide) _ rfl

end Amp
